import Mathlib

/-!
Shallow embedding of `src/PipelineRecord.py`: the in-memory pipeline-record
CRUD store (`load_data_from_file`, `add_record`, `edit_record`,
`delete_record`) and the categorical aggregation (`aggregate_data`), together
with theorems settling the specification claims about them.

Modelling conventions:
* Python strings are Lean `String`; parsed numeric values are `ℚ` (the
  numeric inputs exercised by the claims are short decimal literals, on which
  IEEE-double and exact-rational comparison against the thresholds 20 and 50
  agree).
* Python `float(s)` is modelled by `parseFloat` below: optional surrounding
  whitespace, optional sign, decimal digits with optional fraction and
  optional exponent. `none` models `float` raising `ValueError`. (The exotic
  spellings `inf`/`nan` and digit-group underscores accepted by CPython are
  outside the inputs any claim touches and are not modelled.)
* The two Python classes `PipelineRecord` / `FormattedPipelineRecord` hold
  the same two string fields and differ only in display; a record is modelled
  as a structure with an `isFormatted` flag telling the two classes apart.
* Each store operation returns the resulting list together with an observable
  outcome: `ok` (normal return), `valueError` (an uncaught `ValueError`
  escaping from `float`), or `invalidRecordNumber` (the
  "Invalid record number." rejection branch, the spec's `NotFoundError`).
  Python mutates the list in place; the embedding threads it explicitly.
* The CSV reader and `input()` prompts are the excluded I/O collaborators:
  `load_data_from_file` takes the row stream as a list of
  (throughput, available-capacity) string pairs, and `add_record` /
  `edit_record` take the prompted strings as arguments.
-/

namespace Pipeline

/-- Whitespace characters Python's `float` strips from both ends of its
argument. -/
def isSpaceChar (c : Char) : Bool :=
  c == ' ' || c == '\t' || c == '\n' || c == '\r'

/-- Drop surrounding whitespace, as `float` does before parsing. -/
def trimSpaces (cs : List Char) : List Char :=
  ((cs.dropWhile isSpaceChar).reverse.dropWhile isSpaceChar).reverse

/-- Numeric value of a digit string (most significant first). -/
def digitsVal (ds : List Char) : Nat :=
  ds.foldl (fun acc c => 10 * acc + (c.toNat - 48)) 0

/-- `10 ^ n` as a plain recursive function, kept kernel-friendly. -/
def tenPow : Nat → Nat
  | 0 => 1
  | n + 1 => 10 * tenPow n

/-- Split a leading sign off a character list; `true` means negative. -/
def splitSign : List Char → Bool × List Char
  | '-' :: rest => (true, rest)
  | '+' :: rest => (false, rest)
  | cs => (false, cs)

/-- Parse the part after `e`/`E` and apply it to the mantissa, given as the
exact fraction `num / den`. -/
def parseExpPart (num : Int) (den : Nat) (cs : List Char) : Option ℚ :=
  let (eneg, cs1) := splitSign cs
  let (ds, rest) := cs1.span Char.isDigit
  if ds.isEmpty || !rest.isEmpty then none
  else
    let mag := tenPow (digitsVal ds)
    some (if eneg then mkRat num (den * mag) else mkRat (num * (mag : Int)) den)

/-- Model of Python `float` on a string: `some v` when `float` returns the
value written by the literal, `none` when it raises `ValueError`. The value
is assembled as one exact fraction via `mkRat` (kernel-reducible, unlike the
arithmetic operations on `ℚ`). -/
def parseFloat (s : String) : Option ℚ :=
  let cs0 := trimSpaces s.data
  let (neg, cs1) := splitSign cs0
  let (ip, cs2) := cs1.span Char.isDigit
  let (fp, cs3) :=
    match cs2 with
    | '.' :: rest => rest.span Char.isDigit
    | other => (([] : List Char), other)
  if ip.isEmpty && fp.isEmpty then none
  else
    let mantNum : Nat := digitsVal ip * tenPow fp.length + digitsVal fp
    let sNum : Int := if neg then -(mantNum : Int) else (mantNum : Int)
    match cs3 with
    | [] => some (mkRat sNum (tenPow fp.length))
    | 'e' :: rest => parseExpPart sNum (tenPow fp.length) rest
    | 'E' :: rest => parseExpPart sNum (tenPow fp.length) rest
    | _ => none

/-- One record of the dataset (`PipelineRecord.py` lines 5–79). Both Python
classes store `throughput` and `available_capacity` as strings;
`isFormatted := true` encodes the `FormattedPipelineRecord` subclass,
`false` the plain `PipelineRecord`. -/
structure PipelineRecord where
  throughput : String
  available_capacity : String
  isFormatted : Bool
deriving DecidableEq, Inhabited

/-- Observable outcome of one store operation. -/
inductive PyOutcome where
  /-- The function returned normally. -/
  | ok
  /-- An uncaught `ValueError` escaped from `float` (the spec's
  `ValidationError`). -/
  | valueError
  /-- The "Invalid record number." rejection branch (the spec's
  `NotFoundError`). -/
  | invalidRecordNumber
deriving DecidableEq

/-- Store contents after an operation, together with its outcome. -/
structure OpResult where
  records : List PipelineRecord
  outcome : PyOutcome
deriving DecidableEq

/-- Result of `load_data_from_file`: the records built, and whether one of
the broad `except` handlers reported an error. -/
structure LoadResult where
  records : List PipelineRecord
  errored : Bool
deriving DecidableEq

/-- The class-selection branch repeated at lines 102–111 (load) and 157–160
(add): `FormattedPipelineRecord` exactly when the parsed throughput exceeds
50. -/
def recordOfRow (throughput available_capacity : String) (v : ℚ) : PipelineRecord :=
  if v > 50 then ⟨throughput, available_capacity, true⟩
  else ⟨throughput, available_capacity, false⟩

/-- The row loop of `load_data_from_file` (lines 100–114). A row whose
throughput fails `float` raises inside the loop; the exception is caught by
the broad handler at lines 117–118, which stops the whole loop: `errored`
is set and the rows after the bad one are never examined. After each append
the count is checked against 100 and the loop `break`s once it is reached. -/
def load_go : List (String × String) → List PipelineRecord → LoadResult
  | [], recs => ⟨recs, false⟩
  | (t, c) :: rest, recs =>
    match parseFloat t with
    | none => ⟨recs, true⟩
    | some v =>
      let recs1 := recs ++ [recordOfRow t c v]
      if recs1.length ≥ 100 then ⟨recs1, false⟩
      else load_go rest recs1

/-- `load_data_from_file` (lines 82–119), over the row stream the CSV reader
yields: each row is its (throughput, available-capacity) pair of strings.
The accumulator starts empty (`records = []`, line 96). -/
def load_data_from_file (rows : List (String × String)) : LoadResult :=
  load_go rows []

/-- `add_record` (lines 144–163), with the two `input()` strings as
arguments. Only the throughput is passed to `float` (line 157); if that
raises, nothing has been appended. The available-capacity string is never
validated. -/
def add_record (records : List PipelineRecord) (throughput available_capacity : String) :
    OpResult :=
  match parseFloat throughput with
  | none => ⟨records, .valueError⟩
  | some v => ⟨records ++ [recordOfRow throughput available_capacity v], .ok⟩

/-- `edit_record` (lines 165–197), with the 1-based record number `i` and the
two prompted strings as arguments. Inside the bounds check the record's two
fields are overwritten in place (lines 182–183) *before* `float(throughput)`
is first called (line 186); a non-numeric throughput therefore raises after
the mutation. When `float` succeeds, the object is replaced by a fresh one
of the other class exactly when its class no longer matches the
`> 50` test (lines 186–193). -/
def edit_record (records : List PipelineRecord) (i : Int)
    (throughput available_capacity : String) : OpResult :=
  let record_id : Int := i - 1
  if 0 ≤ record_id ∧ record_id < (records.length : Int) then
    let idx := record_id.toNat
    let current_record := records.getD idx default
    let records1 := records.set idx
      { current_record with throughput := throughput,
                            available_capacity := available_capacity }
    match parseFloat throughput with
    | none => ⟨records1, .valueError⟩
    | some v =>
      if v > 50 ∧ current_record.isFormatted = false then
        ⟨records1.set idx ⟨throughput, available_capacity, true⟩, .ok⟩
      else if v ≤ 50 ∧ current_record.isFormatted = true then
        ⟨records1.set idx ⟨throughput, available_capacity, false⟩, .ok⟩
      else
        ⟨records1, .ok⟩
  else
    ⟨records, .invalidRecordNumber⟩

/-- `delete_record` (lines 200–214): bounds-check the 1-based record number,
then `records.pop(record_id)`. -/
def delete_record (records : List PipelineRecord) (i : Int) : OpResult :=
  let record_id : Int := i - 1
  if 0 ≤ record_id ∧ record_id < (records.length : Int) then
    ⟨records.eraseIdx record_id.toNat, .ok⟩
  else
    ⟨records, .invalidRecordNumber⟩

/-- The two attribute names `aggregate_data` may be called with. -/
inductive Field where
  | throughput
  | available_capacity
deriving DecidableEq

/-- `getattr(record, field)` for the two admissible field names. -/
def PipelineRecord.fieldValue (r : PipelineRecord) : Field → String
  | .throughput => r.throughput
  | .available_capacity => r.available_capacity

/-- The three fixed category counters of `aggregate_data` (line 247):
`low` is "Low (0-20)", `medium` is "Medium (20-50)", `high` is
"High (50+)". -/
structure Categories where
  low : Nat
  medium : Nat
  high : Nat
deriving DecidableEq

/-- The record loop of `aggregate_data` (lines 249–256).
`float(getattr(record, field))` is unguarded: a non-numeric stored value
raises and the whole aggregation fails (`none`). -/
def aggregate_go (field : Field) : List PipelineRecord → Categories → Option Categories
  | [], acc => some acc
  | r :: rest, acc =>
    match parseFloat (r.fieldValue field) with
    | none => none
    | some value =>
      if value ≤ 20 then
        aggregate_go field rest { acc with low := acc.low + 1 }
      else if 20 < value ∧ value ≤ 50 then
        aggregate_go field rest { acc with medium := acc.medium + 1 }
      else
        aggregate_go field rest { acc with high := acc.high + 1 }

/-- `aggregate_data` (lines 231–258): all three counters start at 0. -/
def aggregate_data (records : List PipelineRecord) (field : Field) : Option Categories :=
  aggregate_go field records ⟨0, 0, 0⟩

/-- The implicit per-record store invariant: the stored throughput parses,
and the record is the formatted class exactly when the parsed value
exceeds 50. -/
def RecordInv (r : PipelineRecord) : Prop :=
  ∃ v, parseFloat r.throughput = some v ∧ r.isFormatted = decide (v > 50)

/-- Every record of the store satisfies `RecordInv`. -/
def StoreInv (records : List PipelineRecord) : Prop :=
  ∀ r ∈ records, RecordInv r

/-- Store states reachable in the menu loop through *successful* operations:
the session starts empty (line 310), option 1 replaces the store by a fresh
load, and options 3/4/5 mutate it through `add_record` / `edit_record` /
`delete_record`. A failing operation raises out of `main_menu` and ends the
process, so only `ok` outcomes extend a history. -/
inductive Reachable : List PipelineRecord → Prop where
  | init : Reachable []
  | load (rows : List (String × String)) : Reachable (load_data_from_file rows).records
  | add {s : List PipelineRecord} (t c : String) :
      Reachable s → (add_record s t c).outcome = .ok →
      Reachable (add_record s t c).records
  | edit {s : List PipelineRecord} (i : Int) (t c : String) :
      Reachable s → (edit_record s i t c).outcome = .ok →
      Reachable (edit_record s i t c).records
  | del {s : List PipelineRecord} (i : Int) :
      Reachable s → (delete_record s i).outcome = .ok →
      Reachable (delete_record s i).records

/-- The records an all-well-formed row prefix turns into: one `recordOfRow`
per (row, parsed value) pair, in input order. -/
def recordsOfRows (rows : List (String × String)) (vals : List ℚ) : List PipelineRecord :=
  (rows.zip vals).map (fun p => recordOfRow p.1.1 p.1.2 p.2)

/-! ## Shared helper lemmas -/

/-- When the throughput parses, the branch at lines 186–193 of `edit_record`
replaces the record at the index by the freshly classified one, whatever its
previous class. -/
theorem edit_record_ok_spec (records : List PipelineRecord) (i : Int)
    (t c : String) (v : ℚ) (h1 : 1 ≤ i) (h2 : i ≤ (records.length : Int))
    (hv : parseFloat t = some v) :
    edit_record records i t c =
      ⟨records.set (i - 1).toNat (recordOfRow t c v), .ok⟩ := by
  have hcond : 0 ≤ i - 1 ∧ i - 1 < (records.length : Int) := by omega
  simp only [edit_record, if_pos hcond, hv]
  cases hrec : records.getD (i - 1).toNat default with
  | mk t0 c0 f0 =>
    by_cases hgt : v > 50
    · cases f0
      · simp [recordOfRow, hgt, not_le.mpr hgt, List.set_set]
      · simp [recordOfRow, hgt, not_le.mpr hgt]
    · cases f0
      · simp [recordOfRow, hgt]
      · simp [recordOfRow, hgt, not_lt.mp hgt, List.set_set]

/-! ## C1: atomicity of `edit_record` -/

/-- C1 counterexample: on the valid index 1 with a non-numeric throughput,
`edit_record` fails but the record has already been overwritten in place —
the store is not identical to its pre-call state. -/
theorem edit_record_not_atomic :
    parseFloat "abc" = none ∧
    edit_record [⟨"10", "5", false⟩] 1 "abc" "7" =
      ⟨[⟨"abc", "7", false⟩], .valueError⟩ ∧
    ([⟨"abc", "7", false⟩] : List PipelineRecord) ≠ [⟨"10", "5", false⟩] := by
  decide

/-- C1 amended: for a valid index and a non-parseable throughput,
`edit_record` fails with the uncaught `ValueError`, but only after both
fields of the record at that index have been overwritten in place (its
class is left as it was): the partial mutation is observable. -/
theorem edit_record_partial_mutation (records : List PipelineRecord) (i : Int)
    (t c : String) (h1 : 1 ≤ i) (h2 : i ≤ (records.length : Int))
    (ht : parseFloat t = none) :
    edit_record records i t c =
      ⟨records.set (i - 1).toNat
         { records.getD (i - 1).toNat default with
             throughput := t, available_capacity := c },
       .valueError⟩ := by
  have hcond : 0 ≤ i - 1 ∧ i - 1 < (records.length : Int) := by omega
  simp only [edit_record, if_pos hcond, ht]

theorem edit_record_partial_mutation_witness :
    edit_record [⟨"15", "5", false⟩, ⟨"60", "6", true⟩] 2 "oops" "9" =
      ⟨[⟨"15", "5", false⟩, ⟨"oops", "9", true⟩], .valueError⟩ := by
  have h := edit_record_partial_mutation [⟨"15", "5", false⟩, ⟨"60", "6", true⟩]
    2 "oops" "9" (by decide) (by decide) (by decide)
  exact h.trans (by decide)

/-! ## C2: validation in `add_record` -/

/-- C2 counterexample: `add_record` never validates the available-capacity
string — with a numeric throughput and the non-numeric capacity "abc" it
succeeds and appends a record carrying the non-numeric field. -/
theorem add_record_accepts_bad_capacity :
    parseFloat "abc" = none ∧
    add_record [] "10" "abc" = ⟨[⟨"10", "abc", false⟩], .ok⟩ := by
  decide

/-- C2 amended: `add_record` validates only the throughput: when that string
is not parseable, the operation fails with the uncaught `ValueError` and the
store is unchanged; the available-capacity string is not validated, so a
record with a non-numeric capacity field can be appended. -/
theorem add_record_rejects_bad_throughput (records : List PipelineRecord)
    (t c : String) (ht : parseFloat t = none) :
    add_record records t c = ⟨records, .valueError⟩ := by
  simp only [add_record, ht]

theorem add_record_rejects_bad_throughput_witness :
    add_record [⟨"10", "5", false⟩] "x1" "7" = ⟨[⟨"10", "5", false⟩], .valueError⟩ :=
  add_record_rejects_bad_throughput [⟨"10", "5", false⟩] "x1" "7" (by decide)

/-! ## C5: out-of-range indices -/

/-- C5: for any index outside `[1, length]`, both `edit_record` and
`delete_record` take the "Invalid record number." branch (the spec's
`NotFoundError`) and leave the store untouched. -/
theorem out_of_range_edit_delete_unchanged (records : List PipelineRecord)
    (i : Int) (t c : String) (h : ¬ (1 ≤ i ∧ i ≤ (records.length : Int))) :
    edit_record records i t c = ⟨records, .invalidRecordNumber⟩ ∧
    delete_record records i = ⟨records, .invalidRecordNumber⟩ := by
  have hcond : ¬ (0 ≤ i - 1 ∧ i - 1 < (records.length : Int)) := by omega
  constructor
  · simp only [edit_record, if_neg hcond]
  · simp only [delete_record, if_neg hcond]

theorem out_of_range_edit_delete_unchanged_witness :
    edit_record [⟨"10", "5", false⟩] 2 "1" "1" =
      ⟨[⟨"10", "5", false⟩], .invalidRecordNumber⟩ ∧
    delete_record [⟨"10", "5", false⟩] 2 = ⟨[⟨"10", "5", false⟩], .invalidRecordNumber⟩ :=
  out_of_range_edit_delete_unchanged [⟨"10", "5", false⟩] 2 "1" "1" (by decide)

/-! ## C6: update re-derives the display variant -/

/-- C6: after a successful `edit_record` the record at the index is exactly
the freshly classified `recordOfRow` built from the new strings — formatted
precisely when the new throughput exceeds 50 — independent of which class
the record had before. -/
theorem edit_record_rederives_variant (records : List PipelineRecord) (i : Int)
    (t c : String) (v : ℚ) (h1 : 1 ≤ i) (h2 : i ≤ (records.length : Int))
    (hv : parseFloat t = some v) :
    edit_record records i t c =
      ⟨records.set (i - 1).toNat (recordOfRow t c v), .ok⟩ ∧
    (recordOfRow t c v).isFormatted = decide (v > 50) := by
  refine ⟨edit_record_ok_spec records i t c v h1 h2 hv, ?_⟩
  by_cases hgt : v > 50 <;> simp [recordOfRow, hgt]

theorem edit_record_rederives_variant_witness :
    edit_record [⟨"60", "1", true⟩] 1 "10" "2" = ⟨[⟨"10", "2", false⟩], .ok⟩ ∧
    (recordOfRow "10" "2" 10).isFormatted = decide ((10 : ℚ) > 50) := by
  have h := edit_record_rederives_variant [⟨"60", "1", true⟩] 1 "10" "2" 10
    (by decide) (by decide) (by decide)
  exact ⟨h.1.trans (by decide), h.2⟩

/-! ## C7: delete removes exactly one record, preserving order -/

/-- C7: for a valid index, `delete_record` removes exactly the record at
that position — the result is the prefix before it followed by the suffix
after it, so the remaining records keep their relative order — and the
length drops by one. -/
theorem delete_record_removes_exactly (records : List PipelineRecord) (i : Int)
    (h1 : 1 ≤ i) (h2 : i ≤ (records.length : Int)) :
    delete_record records i =
      ⟨records.take (i - 1).toNat ++ records.drop ((i - 1).toNat + 1), .ok⟩ ∧
    (delete_record records i).records.length + 1 = records.length := by
  have hcond : 0 ≤ i - 1 ∧ i - 1 < (records.length : Int) := by omega
  have hidx : (i - 1).toNat < records.length := by omega
  constructor
  · simp only [delete_record, if_pos hcond]
    rw [List.eraseIdx_eq_take_drop_succ]
  · simp only [delete_record, if_pos hcond]
    rw [List.length_eraseIdx_of_lt hidx]
    omega

theorem delete_record_removes_exactly_witness :
    delete_record [⟨"10", "1", false⟩, ⟨"60", "2", true⟩, ⟨"30", "3", false⟩] 2 =
      ⟨[⟨"10", "1", false⟩, ⟨"30", "3", false⟩], .ok⟩ ∧
    (delete_record [⟨"10", "1", false⟩, ⟨"60", "2", true⟩, ⟨"30", "3", false⟩] 2).records.length + 1 = 3 := by
  have h := delete_record_removes_exactly
    [⟨"10", "1", false⟩, ⟨"60", "2", true⟩, ⟨"30", "3", false⟩] 2 (by decide) (by decide)
  exact ⟨h.1.trans (by decide), h.2⟩

/-! ## Aggregation: shared characterization -/

/-- The loop of `aggregate_data` adds, on top of the incoming counters, one
count per value into the bucket selected by the interval tests of
lines 251–256. -/
theorem aggregate_go_spec (field : Field) (rs : List PipelineRecord) :
    ∀ (vals : List ℚ) (acc : Categories),
      rs.map (fun r => parseFloat (r.fieldValue field)) = vals.map some →
      aggregate_go field rs acc = some
        ⟨acc.low + (vals.filter (fun v => decide (v ≤ 20))).length,
         acc.medium + (vals.filter (fun v => decide (20 < v ∧ v ≤ 50))).length,
         acc.high + (vals.filter (fun v => decide (50 < v))).length⟩ := by
  induction rs with
  | nil =>
    intro vals acc h
    have hv : vals = [] := by
      cases vals with
      | nil => rfl
      | cons x xs => simp at h
    subst hv
    simp [aggregate_go]
  | cons r rest ih =>
    intro vals acc h
    cases vals with
    | nil => simp at h
    | cons v vs =>
      simp only [List.map_cons, List.cons.injEq] at h
      obtain ⟨hv, hrest⟩ := h
      simp only [aggregate_go, hv]
      by_cases h20 : v ≤ 20
      · rw [if_pos h20, ih vs _ hrest]
        have hm : ¬ (20 < v ∧ v ≤ 50) := fun hc => absurd h20 (not_le.mpr hc.1)
        have hh : ¬ (50 < v) := not_lt.mpr (h20.trans (by norm_num))
        simp only [List.filter_cons, decide_eq_true_eq]
        rw [if_pos h20, if_neg hm, if_neg hh]
        simp only [List.length_cons, Option.some.injEq, Categories.mk.injEq, and_true, true_and]
        omega
      · rw [if_neg h20]
        by_cases h50 : v ≤ 50
        · have hmid : 20 < v ∧ v ≤ 50 := ⟨not_le.mp h20, h50⟩
          rw [if_pos hmid, ih vs _ hrest]
          have hh : ¬ (50 < v) := not_lt.mpr h50
          simp only [List.filter_cons, decide_eq_true_eq]
          rw [if_neg h20, if_pos hmid, if_neg hh]
          simp only [List.length_cons, Option.some.injEq, Categories.mk.injEq, and_true, true_and]
          omega
        · have hmid : ¬ (20 < v ∧ v ≤ 50) := fun hc => absurd hc.2 h50
          rw [if_neg hmid, ih vs _ hrest]
          have hh : 50 < v := not_le.mp h50
          simp only [List.filter_cons, decide_eq_true_eq]
          rw [if_neg h20, if_neg hmid, if_pos hh]
          simp only [List.length_cons, Option.some.injEq, Categories.mk.injEq, and_true, true_and]
          omega

/-- The three interval predicates partition any value list. -/
theorem filter_three_way_partition (vals : List ℚ) :
    (vals.filter (fun v => decide (v ≤ 20))).length +
    (vals.filter (fun v => decide (20 < v ∧ v ≤ 50))).length +
    (vals.filter (fun v => decide (50 < v))).length = vals.length := by
  induction vals with
  | nil => simp
  | cons v vs ih =>
    by_cases h20 : v ≤ 20
    · have hm : ¬ (20 < v ∧ v ≤ 50) := fun hc => absurd h20 (not_le.mpr hc.1)
      have hh : ¬ (50 < v) := not_lt.mpr (h20.trans (by norm_num))
      simp only [List.filter_cons, decide_eq_true_eq]
      rw [if_pos h20, if_neg hm, if_neg hh]
      simp only [List.length_cons]
      omega
    · by_cases h50 : v ≤ 50
      · have hmid : 20 < v ∧ v ≤ 50 := ⟨not_le.mp h20, h50⟩
        have hh : ¬ (50 < v) := not_lt.mpr h50
        simp only [List.filter_cons, decide_eq_true_eq]
        rw [if_neg h20, if_pos hmid, if_neg hh]
        simp only [List.length_cons]
        omega
      · have hmid : ¬ (20 < v ∧ v ≤ 50) := fun hc => absurd hc.2 h50
        have hh : 50 < v := not_le.mp h50
        simp only [List.filter_cons, decide_eq_true_eq]
        rw [if_neg h20, if_neg hmid, if_pos hh]
        simp only [List.length_cons]
        omega

/-! ## C4: the exact bucketing rule -/

/-- C4: when every chosen-field value parses, `aggregate_data` counts a
value in "Low (0-20)" iff `v ≤ 20`, in "Medium (20-50)" iff
`20 < v ∧ v ≤ 50`, and in "High (50+)" iff `50 < v`: the three counters are
the lengths of the corresponding filters of the value list. -/
theorem aggregate_data_bucket_rule (records : List PipelineRecord)
    (field : Field) (vals : List ℚ)
    (h : records.map (fun r => parseFloat (r.fieldValue field)) = vals.map some) :
    aggregate_data records field = some
      ⟨(vals.filter (fun v => decide (v ≤ 20))).length,
       (vals.filter (fun v => decide (20 < v ∧ v ≤ 50))).length,
       (vals.filter (fun v => decide (50 < v))).length⟩ := by
  have hs := aggregate_go_spec field records vals ⟨0, 0, 0⟩ h
  simpa [aggregate_data] using hs

/-- Boundary witness: throughputs 20, 50 and 50.0001 land in Low, Medium and
High respectively. -/
theorem aggregate_data_bucket_rule_witness :
    aggregate_data
      [⟨"20", "0", false⟩, ⟨"50", "0", false⟩, ⟨"50.0001", "0", true⟩]
      Field.throughput = some ⟨1, 1, 1⟩ := by
  have h := aggregate_data_bucket_rule
    [⟨"20", "0", false⟩, ⟨"50", "0", false⟩, ⟨"50.0001", "0", true⟩]
    Field.throughput [20, 50, mkRat 500001 10000] (by decide)
  exact h.trans (by decide)

/-! ## C8: bucket counts sum to the record count -/

/-- C8: when every chosen-field value parses, aggregation succeeds and the
three bucket counts sum to the number of records. -/
theorem aggregate_counts_sum_to_length (records : List PipelineRecord)
    (field : Field) (vals : List ℚ)
    (h : records.map (fun r => parseFloat (r.fieldValue field)) = vals.map some) :
    ∃ cats, aggregate_data records field = some cats ∧
      cats.low + cats.medium + cats.high = records.length := by
  refine ⟨⟨(vals.filter (fun v => decide (v ≤ 20))).length,
           (vals.filter (fun v => decide (20 < v ∧ v ≤ 50))).length,
           (vals.filter (fun v => decide (50 < v))).length⟩, ?_, ?_⟩
  · have hs := aggregate_go_spec field records vals ⟨0, 0, 0⟩ h
    simpa [aggregate_data] using hs
  · have hlen : vals.length = records.length := by
      have hl := congrArg List.length h
      simpa using hl.symm
    simpa [hlen] using filter_three_way_partition vals

theorem aggregate_counts_sum_to_length_witness :
    ∃ cats,
      aggregate_data [⟨"0", "30", false⟩, ⟨"0", "90", false⟩] Field.available_capacity =
        some cats ∧ cats.low + cats.medium + cats.high = 2 := by
  have h := aggregate_counts_sum_to_length
    [⟨"0", "30", false⟩, ⟨"0", "90", false⟩] Field.available_capacity
    [30, 90] (by decide)
  simpa using h

/-! ## Load: shared characterization -/

/-- Processing an all-well-formed row prefix that cannot reach the 100 cap
just appends the corresponding records to the accumulator. -/
theorem load_go_append (pre : List (String × String)) :
    ∀ (vals : List ℚ) (tail : List (String × String)) (acc : List PipelineRecord),
      pre.map (fun row => parseFloat row.1) = vals.map some →
      acc.length + pre.length < 100 →
      load_go (pre ++ tail) acc = load_go tail (acc ++ recordsOfRows pre vals) := by
  induction pre with
  | nil =>
    intro vals tail acc h hlen
    simp [recordsOfRows]
  | cons row pre ih =>
    intro vals tail acc h hlen
    obtain ⟨t, c⟩ := row
    cases vals with
    | nil => simp at h
    | cons v vs =>
      simp only [List.map_cons, List.cons.injEq] at h
      obtain ⟨hv, hrest⟩ := h
      simp only [List.cons_append, load_go, hv, List.append_eq]
      have hnot : ¬ (acc ++ [recordOfRow t c v]).length ≥ 100 := by
        simp only [List.length_append, List.length_singleton]
        simp only [List.length_cons] at hlen
        omega
      rw [if_neg hnot,
        ih vs tail (acc ++ [recordOfRow t c v]) hrest
          (by simp only [List.length_append, List.length_singleton]
              simp only [List.length_cons] at hlen
              omega)]
      simp [recordsOfRows, List.append_assoc]

/-- When every row parses, `load_go` returns the records of the first rows
up to the 100 cap, with no reported error. -/
theorem load_go_all_parse (rows : List (String × String)) :
    ∀ (vals : List ℚ) (acc : List PipelineRecord),
      rows.map (fun row => parseFloat row.1) = vals.map some →
      acc.length < 100 →
      load_go rows acc =
        ⟨acc ++ (recordsOfRows rows vals).take (100 - acc.length), false⟩ := by
  induction rows with
  | nil =>
    intro vals acc h hlen
    simp [load_go, recordsOfRows]
  | cons row rest ih =>
    intro vals acc h hlen
    obtain ⟨t, c⟩ := row
    cases vals with
    | nil => simp at h
    | cons v vs =>
      simp only [List.map_cons, List.cons.injEq] at h
      obtain ⟨hv, hrest⟩ := h
      simp only [load_go, hv]
      have hcons : recordsOfRows ((t, c) :: rest) (v :: vs) =
          recordOfRow t c v :: recordsOfRows rest vs := by
        simp [recordsOfRows]
      by_cases hfull : (acc ++ [recordOfRow t c v]).length ≥ 100
      · rw [if_pos hfull]
        have hacc : acc.length = 99 := by
          simp only [List.length_append, List.length_singleton] at hfull
          omega
        rw [hcons]
        have h1 : 100 - acc.length = 1 := by omega
        rw [h1, List.take_succ_cons, List.take_zero]
      · rw [if_neg hfull]
        have hlt : (acc ++ [recordOfRow t c v]).length < 100 := by omega
        rw [ih vs (acc ++ [recordOfRow t c v]) hrest hlt]
        rw [hcons]
        have h2 : 100 - acc.length = (100 - (acc ++ [recordOfRow t c v]).length) + 1 := by
          simp only [List.length_append, List.length_singleton]
          omega
        rw [h2, List.take_succ_cons, List.append_assoc, List.singleton_append]

/-! ## C3: load is not lenient per row -/

/-- C3 counterexample: in a 3-row input whose middle row is malformed, the
well-formed third row produces no record — the result is the single record
of the first row, with the error reported: loading did not continue. -/
theorem load_aborts_on_bad_row :
    parseFloat "abc" = none ∧ (parseFloat "30").isSome = true ∧
    load_data_from_file [("10", "1"), ("abc", "2"), ("30", "3")] =
      ⟨[⟨"10", "1", false⟩], true⟩ := by
  decide

/-- C3 amended: a row whose numeric field cannot be coerced causes a
reported error that *aborts* loading: the rows before it (when they fit
under the 100 cap) produce their records, and that row together with every
row after it is dropped. -/
theorem load_stops_at_bad_row (pre rest : List (String × String))
    (vals : List ℚ) (t c : String)
    (hpre : pre.map (fun row => parseFloat row.1) = vals.map some)
    (hlen : pre.length < 100)
    (hbad : parseFloat t = none) :
    load_data_from_file (pre ++ (t, c) :: rest) = ⟨recordsOfRows pre vals, true⟩ := by
  unfold load_data_from_file
  rw [load_go_append pre vals ((t, c) :: rest) [] hpre (by simpa using hlen)]
  simp [load_go, hbad]

theorem load_stops_at_bad_row_witness :
    load_data_from_file [("60", "1"), ("x", "2"), ("30", "3")] =
      ⟨[⟨"60", "1", true⟩], true⟩ := by
  have h := load_stops_at_bad_row [("60", "1")] [("30", "3")] [60] "x" "2"
    (by decide) (by decide) (by decide)
  exact h.trans (by decide)

/-! ## C9: one record per row, truncated at 100 -/

/-- C9 counterexample: a well-formed row that follows a malformed one
produces no record — `load_data_from_file` does not yield one record per
well-formed row. -/
theorem load_drops_wellformed_after_bad :
    (parseFloat "10").isSome = true ∧
    load_data_from_file [("abc", "1"), ("10", "2")] = ⟨[], true⟩ := by
  decide

/-- C9 amended: when every row is well formed, Load produces one record per
input row, in input order, silently truncating to the first 100; rows after
a malformed row, however, produce nothing (see the counterexample). -/
theorem load_truncates_at_100 (rows : List (String × String)) (vals : List ℚ)
    (h : rows.map (fun row => parseFloat row.1) = vals.map some) :
    load_data_from_file rows = ⟨(recordsOfRows rows vals).take 100, false⟩ ∧
    (load_data_from_file rows).records.length = min rows.length 100 := by
  have hmain : load_data_from_file rows = ⟨(recordsOfRows rows vals).take 100, false⟩ := by
    unfold load_data_from_file
    rw [load_go_all_parse rows vals [] h (by norm_num)]
    simp
  refine ⟨hmain, ?_⟩
  rw [hmain]
  have hvlen : vals.length = rows.length := by
    have hl := congrArg List.length h
    simpa using hl.symm
  simp only [List.length_take, recordsOfRows, List.length_map, List.length_zip, hvlen]
  omega

theorem load_truncates_at_100_witness :
    load_data_from_file [("60", "2"), ("10", "3")] =
      ⟨[⟨"60", "2", true⟩, ⟨"10", "3", false⟩], false⟩ ∧
    (load_data_from_file [("60", "2"), ("10", "3")]).records.length = 2 := by
  have h := load_truncates_at_100 [("60", "2"), ("10", "3")] [60, 10] (by decide)
  exact ⟨h.1.trans (by decide), h.2.trans (by decide)⟩

/-! ## C10: the store invariant -/

/-- A freshly classified record satisfies the per-record invariant. -/
theorem recordOfRow_inv (t c : String) (v : ℚ) (hv : parseFloat t = some v) :
    RecordInv (recordOfRow t c v) := by
  unfold RecordInv recordOfRow
  by_cases hgt : v > 50
  · exact ⟨v, by simp [hgt, hv], by simp [hgt]⟩
  · exact ⟨v, by simp [hgt, hv], by simp [hgt]⟩

/-- Every record the load loop builds satisfies the per-record invariant. -/
theorem load_go_inv (rows : List (String × String)) :
    ∀ acc : List PipelineRecord, (∀ r ∈ acc, RecordInv r) →
      ∀ r ∈ (load_go rows acc).records, RecordInv r := by
  induction rows with
  | nil => intro acc hacc r hr; exact hacc r hr
  | cons row rest ih =>
    intro acc hacc r hr
    obtain ⟨t, c⟩ := row
    cases hp : parseFloat t with
    | none => simp only [load_go, hp] at hr; exact hacc r hr
    | some v =>
      simp only [load_go, hp] at hr
      have hacc1 : ∀ x ∈ acc ++ [recordOfRow t c v], RecordInv x := by
        intro x hx
        rcases List.mem_append.mp hx with hx | hx
        · exact hacc x hx
        · rw [List.mem_singleton.mp hx]; exact recordOfRow_inv t c v hp
      by_cases hfull : (acc ++ [recordOfRow t c v]).length ≥ 100
      · rw [if_pos hfull] at hr; exact hacc1 r hr
      · rw [if_neg hfull] at hr; exact ih _ hacc1 r hr

/-- C10 counterexample: the claim's closing clause — "every operation that
inserts or rewrites a record preserves this invariant" — fails for a
*failing* `edit_record`: starting from a store satisfying the invariant, an
edit with a non-numeric throughput rewrites the record in place and leaves
a store that violates it. -/
theorem failed_edit_breaks_store_inv :
    StoreInv [⟨"10", "5", false⟩] ∧
    ¬ StoreInv (edit_record [⟨"10", "5", false⟩] 1 "abc" "7").records := by
  constructor
  · intro r hr
    rw [List.mem_singleton.mp hr]
    exact ⟨10, by decide, by decide⟩
  · intro hinv
    have hrec : (edit_record [⟨"10", "5", false⟩] 1 "abc" "7").records =
        [⟨"abc", "7", false⟩] := by decide
    obtain ⟨v, hv, _⟩ := hinv ⟨"abc", "7", false⟩ (by rw [hrec]; exact List.mem_singleton_self _)
    have hn : parseFloat "abc" = none := by decide
    rw [hn] at hv
    exact Option.noConfusion hv

/-- C10 amended: restricted to *successful* operations the invariant is a
true store invariant — every store reachable through successful
`load_data_from_file` / `add_record` / `edit_record` / `delete_record`
calls (a failing call raises out of `main_menu` and ends the session)
consists of records whose throughput parses and whose class matches the
`> 50` test. -/
theorem reachable_store_inv (s : List PipelineRecord) (h : Reachable s) :
    StoreInv s := by
  induction h with
  | init => intro r hr; cases hr
  | load rows => exact load_go_inv rows [] (fun r hr => absurd hr (List.not_mem_nil r))
  | add t c hreach hok ih =>
    rename_i s0
    intro r hr
    cases hp : parseFloat t with
    | none =>
      rw [show (add_record s0 t c).outcome = .valueError by
        simp [add_record, hp]] at hok
      exact PyOutcome.noConfusion hok
    | some v =>
      have hrecs : (add_record s0 t c).records = s0 ++ [recordOfRow t c v] := by
        simp [add_record, hp]
      rw [hrecs] at hr
      rcases List.mem_append.mp hr with hx | hx
      · exact ih r hx
      · rw [List.mem_singleton.mp hx]; exact recordOfRow_inv t c v hp
  | edit i t c hreach hok ih =>
    rename_i s0
    intro r hr
    by_cases hcond : 0 ≤ i - 1 ∧ i - 1 < (s0.length : Int)
    · cases hp : parseFloat t with
      | none =>
        rw [show (edit_record s0 i t c).outcome = .valueError by
          simp only [edit_record, if_pos hcond, hp]] at hok
        exact PyOutcome.noConfusion hok
      | some v =>
        rw [edit_record_ok_spec s0 i t c v (by omega) (by omega) hp] at hr
        rcases List.mem_or_eq_of_mem_set hr with hx | hx
        · exact ih r hx
        · rw [hx]; exact recordOfRow_inv t c v hp
    · rw [show (edit_record s0 i t c).outcome = .invalidRecordNumber by
        simp only [edit_record, if_neg hcond]] at hok
      exact PyOutcome.noConfusion hok
  | del i hreach hok ih =>
    rename_i s0
    intro r hr
    simp only [delete_record] at hr
    by_cases hcond : 0 ≤ i - 1 ∧ i - 1 < (s0.length : Int)
    · rw [if_pos hcond] at hr
      exact ih r (List.eraseIdx_subset _ _ hr)
    · rw [if_neg hcond] at hr
      exact ih r hr

theorem reachable_store_inv_witness :
    StoreInv (add_record [] "60" "1").records :=
  reachable_store_inv (add_record [] "60" "1").records
    (Reachable.add "60" "1" Reachable.init (by decide))

end Pipeline
